import Mathlib

/-!
Verification of the resistor-network search engine of `src/resistors.rs`.

The Rust program is shallowly embedded below.  Modelling conventions:

* Rust `f64` values are modelled as rationals (`ℚ`); the program's arithmetic
  on them (`+`, `1.0 / _`, `abs`, `<`) is exact on the inputs the claims use.
* `fail!` (a Rust panic) is modelled by `Option`: a function that can panic
  returns `none` where the Rust code would abort.
* The Rust standard-library pieces are modelled as follows.
  `from_str::<f64>` is modelled on the decimal-natural numerals this program
  actually exchanges (its catalogue labels are produced by `to_string` on the
  catalogue values); `Vec` is `List`; `PriorityQueue` (a max-heap whose `pop`
  returns a greatest element under `Ord`) is a `List` with a scanning
  `popMax`; `TreeSet` (an ordered set whose `contains` finds an element
  comparing `Equal` under `Ord`) is a `List` with a scanning membership test.
* The search loop `while !queue.is_empty()` need not terminate, so it is
  modelled with explicit fuel; running out of fuel is the distinguished
  result `SearchResult.fuelOut`.
-/

namespace Resistors

/-- The tree type `ResistorTree` of `src/resistors.rs` (lines 6–11):
a resistor network is a single resistor (carrying the textual label it was
constructed from), or a parallel / series arrangement of child networks.
Every variant carries an optional cached resistance value. -/
inductive ResistorTree : Type
  | Resistor (label : String) (val : Option ℚ)
  | Parallel (children : List ResistorTree) (val : Option ℚ)
  | Series (children : List ResistorTree) (val : Option ℚ)

/-- Parse a non-empty all-digit decimal numeral.  Model of the fragment of
Rust `from_str::<f64>` exercised by this program (all labels it creates are
`to_string` of catalogue values, and the claims use natural-number values). -/
def parseNat (s : String) : Option ℕ :=
  if s.isEmpty then none
  else if s.toList.all (fun c => c.isDigit) then
    some (s.toList.foldl (fun a c => 10 * a + (c.toNat - 48)) 0)
  else none

/-- Model of Rust `from_str::<f64>` on a resistor label (see `parseNat`). -/
def from_str (s : String) : Option ℚ :=
  (parseNat s).map (fun n => (n : ℚ))

/-- Model of Rust `f64::to_string` on a catalogue value: the program only
round-trips natural-number catalogue values through `to_string`/`from_str`,
so non-natural rationals get a placeholder that does not parse back. -/
def toLabel (v : ℚ) : String :=
  if v.den = 1 ∧ 0 ≤ v.num then Nat.repr v.num.toNat else "~"

mutual

/-- `ResistorTree::ohms` (lines 14–43).  A cached value is returned as is;
a `Resistor` leaf otherwise parses its label (`none` models the `fail!`
panic); a `Parallel` node computes `1 / Σ (1 / child)`; a `Series` node
computes `1 / Σ child` — note the code takes the reciprocal of the plain
sum for `Series`, mirrored here exactly. -/
def ohms : ResistorTree → Option ℚ
  | .Resistor s val =>
    match val with
    | some v => some v
    | none => from_str s
  | .Parallel cs val =>
    match val with
    | some v => some v
    | none => (foldRecip cs 0).map (fun s => 1 / s)
  | .Series cs val =>
    match val with
    | some v => some v
    | none => (foldSum cs 0).map (fun s => 1 / s)

/-- The fold `vec.iter().fold(0.0, |acc, rs| acc + (1.0 / rs.ohms()))`
of the `Parallel` branch of `ohms`, with panic propagation. -/
def foldRecip : List ResistorTree → ℚ → Option ℚ
  | [], acc => some acc
  | rs :: rest, acc =>
    match ohms rs with
    | none => none
    | some r => foldRecip rest (acc + 1 / r)

/-- The fold `vec.iter().fold(0.0, |acc, rs| acc + rs.ohms())`
of the `Series` branch of `ohms`, with panic propagation. -/
def foldSum : List ResistorTree → ℚ → Option ℚ
  | [], acc => some acc
  | rs :: rest, acc =>
    match ohms rs with
    | none => none
    | some r => foldSum rest (acc + r)

end

/-- `ResistorTree::add_in_series` (lines 45–51).  A `Series` operand is
spliced; note that the or-pattern `(&Series(ref v, _), t) | (t, &Series(ref
v, _))` appends `t` AFTER `v`'s children in both alternatives. -/
def add_in_series : ResistorTree → ResistorTree → ResistorTree
  | .Series v1 _, .Series v2 _ => .Series (v1 ++ v2) none
  | .Series v _, t => .Series (v ++ [t]) none
  | t, .Series v _ => .Series (v ++ [t]) none
  | t1, t2 => .Series [t1, t2] none

/-- `ResistorTree::add_in_parallel` (lines 53–59), mirror of
`add_in_series`. -/
def add_in_parallel : ResistorTree → ResistorTree → ResistorTree
  | .Parallel v1 _, .Parallel v2 _ => .Parallel (v1 ++ v2) none
  | .Parallel v _, t => .Parallel (v ++ [t]) none
  | t, .Parallel v _ => .Parallel (v ++ [t]) none
  | t1, t2 => .Parallel [t1, t2] none

mutual

/-- `ResistorTree::total_resistors` (lines 61–66): the number of leaves. -/
def total_resistors : ResistorTree → ℕ
  | .Resistor _ _ => 1
  | .Parallel v _ => totalFold v 0
  | .Series v _ => totalFold v 0

/-- The fold `v.iter().fold(0, |acc, rt| acc + rt.total_resistors())`. -/
def totalFold : List ResistorTree → ℕ → ℕ
  | [], acc => acc
  | rt :: rest, acc => totalFold rest (acc + total_resistors rt)

end

mutual

/-- `impl PartialEq for ResistorTree`, `eq` (lines 124–141): leaves compare
their labels; `Parallel`/`Series` nodes compare children pairwise over
`v1.iter().zip(v2.iter())` — which stops at the SHORTER list, so child
counts are not compared.  Cached values are ignored. -/
def ResistorTree.eq : ResistorTree → ResistorTree → Bool
  | .Resistor l1 _, .Resistor l2 _ => l1 == l2
  | .Parallel v1 _, .Parallel v2 _ => zipEq v1 v2
  | .Series v1 _, .Series v2 _ => zipEq v1 v2
  | _, _ => false

/-- The zipped pairwise comparison of the children lists in
`ResistorTree.eq`: it returns `true` as soon as either list runs out. -/
def zipEq : List ResistorTree → List ResistorTree → Bool
  | [], _ => true
  | _, [] => true
  | t1 :: r1, t2 :: r2 => ResistorTree.eq t1 t2 && zipEq r1 r2

end

/-- The resistance value `cmp` reads: `ohms` with an (unreachable for
label-parseable trees) default, since the Rust `cmp` would panic where
`ohms` does.  No theorem below depends on the default. -/
def ohmsD (t : ResistorTree) : ℚ := (ohms t).getD 0

/-- `impl Ord for ResistorTree`, `cmp` (lines 156–164).  The leaf-count
comparison is REVERSED (`Less => Greater`, `Greater => Less`) so that the
max-heap `PriorityQueue` pops a cheapest tree first; on equal counts, equal
trees compare `Equal`, and otherwise the tree with smaller `ohms` compares
`Less` (hence is popped LATER by the max-heap). -/
def cmp (x y : ResistorTree) : Ordering :=
  match compare (total_resistors x) (total_resistors y) with
  | .eq => if ResistorTree.eq x y then .eq
           else if ohmsD x < ohmsD y then .lt else .gt
  | .lt => .gt
  | .gt => .lt

/-- The mutable state of `ResistorSearcher` (lines 166–173): the frontier
`queue: PriorityQueue<ResistorTree>` as a list popped by `popMax`, and the
explored set `explored: TreeSet<ResistorTree>` as a list searched by
`setContains`.  `target`, `threshold` and `available` are immutable for a
search and are passed separately. -/
structure SearcherState where
  queue : List ResistorTree
  explored : List ResistorTree

/-- Model of `TreeSet::contains`: some stored element compares `Equal` to
`rt` under `cmp`. -/
def setContains (explored : List ResistorTree) (rt : ResistorTree) : Bool :=
  explored.any (fun m => cmp rt m == Ordering.eq)

/-- `ResistorSearcher::push_node` (lines 248–253): insert into BOTH the
frontier and the explored set, unless an `Equal`-comparing tree was already
explored. -/
def push_node (st : SearcherState) (rt : ResistorTree) : SearcherState :=
  if setContains st.explored rt then st
  else ⟨rt :: st.queue, rt :: st.explored⟩

/-- Model of `PriorityQueue::pop`: remove and return a greatest element
under `cmp` (scanning; a later element replaces the current best only when
it compares strictly `Greater`). -/
def popMax : List ResistorTree → Option (ResistorTree × List ResistorTree)
  | [] => none
  | t :: ts =>
    match popMax ts with
    | none => some (t, ts)
    | some (m, rest) =>
      if cmp t m = Ordering.gt then some (t, ts) else some (m, t :: rest)

/-- The fresh leaf `Resistor(val.to_string(), None)` built by
`explore_node` and `search` for a catalogue value. -/
def new_r (v : ℚ) : ResistorTree := .Resistor (toLabel v) none

/-- The inner `for j in range(0, v.len())` loop of the `Series` branch of
`explore_node` (lines 208–217), walking the children with index `j`:
child `j` is kept when `j == i`, and otherwise gets the new resistor in
parallel. -/
def series_ladder (nr : ResistorTree) (i : ℕ) :
    List ResistorTree → ℕ → List ResistorTree
  | [], _ => []
  | c :: rest, j =>
    (if i = j then c else add_in_parallel c nr) :: series_ladder nr i rest (j + 1)

/-- The inner `for j in range(0, v.len())` loop of the `Parallel` branch of
`explore_node` (lines 230–239), the mirror of `series_ladder`. -/
def parallel_ladder (nr : ResistorTree) (i : ℕ) :
    List ResistorTree → ℕ → List ResistorTree
  | [], _ => []
  | c :: rest, j =>
    (if i = j then c else add_in_series c nr) :: parallel_ladder nr i rest (j + 1)

/-- The successors `ResistorSearcher::explore_node` (lines 191–246) pushes
for a popped tree `rt`, in push order: for each catalogue value `val`
(outer loop), the whole-tree series and parallel combinations with a fresh
`Resistor(val.to_string(), None)`, followed — when `rt` is `Series` or
`Parallel` — by one ladder variant per child index `i`. -/
def explore_list (rt : ResistorTree) (available : List ℚ) : List ResistorTree :=
  match rt with
  | .Resistor _ _ =>
    available.flatMap (fun v =>
      [add_in_series rt (new_r v), add_in_parallel rt (new_r v)])
  | .Series cs _ =>
    available.flatMap (fun v =>
      add_in_series rt (new_r v) :: add_in_parallel rt (new_r v) ::
        (List.range cs.length).map
          (fun i => ResistorTree.Series (series_ladder (new_r v) i cs 0) none))
  | .Parallel cs _ =>
    available.flatMap (fun v =>
      add_in_series rt (new_r v) :: add_in_parallel rt (new_r v) ::
        (List.range cs.length).map
          (fun i => ResistorTree.Parallel (parallel_ladder (new_r v) i cs 0) none))

/-- `explore_node` as a state transformer: push every generated successor
through `push_node`, in order. -/
def explore_node (st : SearcherState) (rt : ResistorTree)
    (available : List ℚ) : SearcherState :=
  (explore_list rt available).foldl push_node st

/-- Outcome of running the (possibly non-terminating) `search` loop for a
given amount of fuel. `found t` and `noneFound` are the `Some`/`None`
results of the Rust function; `panicked` marks a `fail!` inside `ohms`;
`fuelOut` means the loop was still running. -/
inductive SearchResult
  | found (t : ResistorTree)
  | noneFound
  | panicked
  | fuelOut

/-- `ResistorSearcher::is_goal` (lines 187–189):
`(rt.ohms() - self.target).abs() < self.threshold`, propagating the panic
of `ohms`. -/
def is_goal (target threshold : ℚ) (rt : ResistorTree) : Option Bool :=
  (ohms rt).map (fun r => decide (|r - target| < threshold))

/-- The `while !self.queue.is_empty()` loop of `ResistorSearcher::search`
(lines 260–270), with explicit fuel: pop a best tree, return it if it
satisfies the goal, otherwise push its successors and continue. -/
def searchLoop (target threshold : ℚ) (available : List ℚ) :
    ℕ → SearcherState → SearchResult
  | 0, _ => .fuelOut
  | fuel + 1, st =>
    match popMax st.queue with
    | none => .noneFound
    | some (rt, rest) =>
      match is_goal target threshold rt with
      | none => .panicked
      | some true => .found rt
      | some false =>
        searchLoop target threshold available fuel
          (explore_node ⟨rest, st.explored⟩ rt available)

/-- The seeding loop of `ResistorSearcher::search` (lines 256–258): push
one fresh leaf per catalogue value. -/
def seedState (available : List ℚ) : SearcherState :=
  (available.map new_r).foldl push_node ⟨[], []⟩

/-- `ResistorSearcher::search` (lines 255–271) for a given fuel. -/
def search (target threshold : ℚ) (available : List ℚ) (fuel : ℕ) :
    SearchResult :=
  searchLoop target threshold available fuel (seedState available)

mutual

/-- Modelled from the spec, §3's equivalence relation (the dedup key as the
spec states it): same variant; for leaves the same label; for
`Series`/`Parallel` the same number of children, pairwise equivalent in
order.  Used to compare the spec's relation against the code's
`ResistorTree.eq`. -/
def equiv3 : ResistorTree → ResistorTree → Bool
  | .Resistor l1 _, .Resistor l2 _ => l1 == l2
  | .Parallel c1 _, .Parallel c2 _ => equiv3List c1 c2
  | .Series c1 _, .Series c2 _ => equiv3List c1 c2
  | _, _ => false

/-- Pairwise equivalence of children lists of the SAME length (spec §3). -/
def equiv3List : List ResistorTree → List ResistorTree → Bool
  | [], [] => true
  | t1 :: r1, t2 :: r2 => equiv3 t1 t2 && equiv3List r1 r2
  | _, _ => false

end

/-- Whether a tree is a `Series` node. -/
def isSeries : ResistorTree → Bool
  | .Series _ _ => true
  | _ => false

/-- The children a tree contributes when combined in series: a `Series`
operand is unwrapped (spliced), any other operand stands alone. -/
def splice : ResistorTree → List ResistorTree
  | .Series cs _ => cs
  | t => [t]

/-- The top-level child labels of a tree's splice, for naming concrete
children in counterexamples. -/
def leafLabels (t : ResistorTree) : List String :=
  (splice t).map (fun c =>
    match c with
    | .Resistor s _ => s
    | _ => "")

mutual

/-- Every leaf of the tree either carries a cached value or has a label
that parses: the validity condition under which `ohms` cannot panic. -/
def leavesOk : ResistorTree → Bool
  | .Resistor s val => val.isSome || (from_str s).isSome
  | .Parallel cs _ => allLeavesOk cs
  | .Series cs _ => allLeavesOk cs

/-- `leavesOk` on every element of a children list. -/
def allLeavesOk : List ResistorTree → Bool
  | [] => true
  | t :: rest => leavesOk t && allLeavesOk rest

end

/-! ### Counting lemmas -/

theorem totalFold_eq_sum : ∀ (l : List ResistorTree) (acc : ℕ),
    totalFold l acc = acc + (l.map total_resistors).sum
  | [], acc => by simp [totalFold]
  | rt :: rest, acc => by
    simp only [totalFold, List.map_cons, List.sum_cons]
    rw [totalFold_eq_sum rest (acc + total_resistors rt)]
    omega

theorem total_add_in_series (a b : ResistorTree) :
    total_resistors (add_in_series a b) =
      total_resistors a + total_resistors b := by
  cases a <;> cases b <;>
    simp [add_in_series, total_resistors, totalFold_eq_sum, List.map_append,
      List.sum_append] <;> omega

theorem total_add_in_parallel (a b : ResistorTree) :
    total_resistors (add_in_parallel a b) =
      total_resistors a + total_resistors b := by
  cases a <;> cases b <;>
    simp [add_in_parallel, total_resistors, totalFold_eq_sum, List.map_append,
      List.sum_append] <;> omega

theorem total_new_r (v : ℚ) : total_resistors (new_r v) = 1 := rfl

/-! ### Claim C10: leaf counts are additive under the combination operators -/

/-- C10: `total_resistors` is additive under both `add_in_series` and
`add_in_parallel`, so combining with an operand that has at least one leaf
strictly increases the leaf count of the other operand. -/
theorem total_resistors_additive (a b : ResistorTree) :
    total_resistors (add_in_series a b) = total_resistors a + total_resistors b ∧
    total_resistors (add_in_parallel a b) = total_resistors a + total_resistors b ∧
    (0 < total_resistors a → 0 < total_resistors b →
      total_resistors a < total_resistors (add_in_series a b) ∧
      total_resistors b < total_resistors (add_in_series a b) ∧
      total_resistors a < total_resistors (add_in_parallel a b) ∧
      total_resistors b < total_resistors (add_in_parallel a b)) := by
  refine ⟨total_add_in_series a b, total_add_in_parallel a b, ?_⟩
  intro ha hb
  rw [total_add_in_series, total_add_in_parallel]
  omega

/-- Witness for `total_resistors_additive` at two concrete leaves. -/
theorem total_resistors_additive_witness :
    0 < total_resistors (ResistorTree.Resistor "1" none) ∧
    0 < total_resistors (ResistorTree.Resistor "2" none) ∧
    total_resistors (ResistorTree.Resistor "1" none) <
      total_resistors (add_in_series (ResistorTree.Resistor "1" none)
        (ResistorTree.Resistor "2" none)) :=
  ⟨by decide, by decide,
    ((total_resistors_additive (ResistorTree.Resistor "1" none)
      (ResistorTree.Resistor "2" none)).2.2 (by decide) (by decide)).1⟩

/-! ### Claim C1: the resistance computation -/

/-- C1 (divergence of the code from the claim): `ohms` agrees with the claim
on leaves (the parsed value) and on `Parallel` (reciprocal of the sum of
reciprocals), but on a `Series` node it returns the reciprocal of the plain
sum of the children's resistances — `Series[100Ω, 220Ω]` evaluates to
`1/320`, not `320 = 100 + 220`. -/
theorem series_ohms_reciprocal_of_sum :
    ohms (ResistorTree.Resistor "100" none) = some 100 ∧
    ohms (ResistorTree.Parallel
      [ResistorTree.Resistor "100" none, ResistorTree.Resistor "100" none] none)
        = some 50 ∧
    ohms (ResistorTree.Series
      [ResistorTree.Resistor "100" none, ResistorTree.Resistor "220" none] none)
        = some (1 / 320) ∧
    (1 / 320 : ℚ) ≠ 100 + 220 := by
  refine ⟨?_, ?_, ?_, ?_⟩ <;> with_unfolding_all decide

/-! ### Claim C3: the equality relation ignores child counts -/

/-- C3 (divergence of the code from the claim): `ResistorTree.eq` compares
children over a zip that stops at the shorter list, so a 1-child `Series`
and a 2-child `Series` with a matching first child compare EQUAL, although
the claim requires equal numbers of children. -/
theorem eq_ignores_child_count :
    ResistorTree.eq (ResistorTree.Series [ResistorTree.Resistor "1" none] none)
      (ResistorTree.Series
        [ResistorTree.Resistor "1" none, ResistorTree.Resistor "2" none] none)
      = true ∧
    ([ResistorTree.Resistor "1" none] : List ResistorTree).length = 1 ∧
    ([ResistorTree.Resistor "1" none, ResistorTree.Resistor "2" none] :
      List ResistorTree).length = 2 :=
  ⟨rfl, rfl, rfl⟩

/-! ### Claim C4: the comparison is not a strict total order -/

/-- C4 (divergence of the code from the claim): two unequal trees with the
same leaf count and the same computed resistance compare `Greater` in BOTH
directions under `cmp` (the final `else` of the equal-count branch), so
`cmp` is not antisymmetric, hence not a strict total order.
`Series["1","2"]` and `Series["2","1"]` both have 2 leaves and resistance
`1/3`. -/
theorem cmp_both_directions_gt :
    cmp (ResistorTree.Series
        [ResistorTree.Resistor "1" none, ResistorTree.Resistor "2" none] none)
      (ResistorTree.Series
        [ResistorTree.Resistor "2" none, ResistorTree.Resistor "1" none] none)
      = Ordering.gt ∧
    cmp (ResistorTree.Series
        [ResistorTree.Resistor "2" none, ResistorTree.Resistor "1" none] none)
      (ResistorTree.Series
        [ResistorTree.Resistor "1" none, ResistorTree.Resistor "2" none] none)
      = Ordering.gt := by
  constructor <;> with_unfolding_all rfl

/-! ### Claim C5: the cost ordering's resistance tiebreak -/

/-- C5 counterexample: two single leaves `1Ω` and `2Ω` (equal leaf count,
unequal trees).  The max-heap pop (`popMax`) returns the `2Ω` leaf first,
i.e. the tree with the LARGER computed resistance is explored first,
refuting the claim's "ascending computed resistance" tiebreak. -/
theorem pop_order_resistance_cex :
    popMax [ResistorTree.Resistor "1" none, ResistorTree.Resistor "2" none]
      = some (ResistorTree.Resistor "2" none, [ResistorTree.Resistor "1" none]) ∧
    ohms (ResistorTree.Resistor "1" none) = some 1 ∧
    ohms (ResistorTree.Resistor "2" none) = some 2 ∧
    total_resistors (ResistorTree.Resistor "1" none)
      = total_resistors (ResistorTree.Resistor "2" none) ∧
    ResistorTree.eq (ResistorTree.Resistor "1" none)
      (ResistorTree.Resistor "2" none) = false ∧
    ((1 : ℚ) < 2) := by
  refine ⟨?_, ?_, ?_, rfl, rfl, by norm_num⟩ <;> with_unfolding_all rfl

/-- C5 amended: under `cmp` (where `Ordering.gt` means "popped from the
max-heap frontier first"), a network with fewer total leaf resistors is
explored first; among equal leaf counts equal trees are order-equal; and
remaining ties between unequal trees are broken by DESCENDING computed
resistance — the network with the larger `ohms` value is explored first. -/
theorem cost_ordering_tiebreak (x y : ResistorTree) :
    (total_resistors x < total_resistors y → cmp x y = Ordering.gt) ∧
    (total_resistors x = total_resistors y → ResistorTree.eq x y = true →
      cmp x y = Ordering.eq) ∧
    (total_resistors x = total_resistors y → ResistorTree.eq x y = false →
      ohmsD y < ohmsD x → cmp x y = Ordering.gt) := by
  refine ⟨?_, ?_, ?_⟩
  · intro h
    have hc : compare (total_resistors x) (total_resistors y) = Ordering.lt :=
      Nat.compare_eq_lt.2 h
    unfold cmp
    rw [hc]
  · intro h he
    have hc : compare (total_resistors x) (total_resistors y) = Ordering.eq :=
      Nat.compare_eq_eq.2 h
    unfold cmp
    rw [hc]
    simp [he]
  · intro h he hlt
    have hc : compare (total_resistors x) (total_resistors y) = Ordering.eq :=
      Nat.compare_eq_eq.2 h
    have hnlt : ¬ (ohmsD x < ohmsD y) := not_lt.2 (le_of_lt hlt)
    unfold cmp
    rw [hc]
    simp [he, hnlt]

/-- Witness for `cost_ordering_tiebreak`: the leaf-count key at a 1-leaf vs
2-leaf pair, and the descending-resistance tiebreak at the `1Ω`/`2Ω` pair. -/
theorem cost_ordering_tiebreak_witness :
    (total_resistors (ResistorTree.Resistor "1" none) <
        total_resistors (ResistorTree.Series
          [ResistorTree.Resistor "1" none, ResistorTree.Resistor "1" none] none) ∧
      cmp (ResistorTree.Resistor "1" none)
        (ResistorTree.Series
          [ResistorTree.Resistor "1" none, ResistorTree.Resistor "1" none] none)
        = Ordering.gt) ∧
    (ohmsD (ResistorTree.Resistor "1" none) < ohmsD (ResistorTree.Resistor "2" none) ∧
      cmp (ResistorTree.Resistor "2" none) (ResistorTree.Resistor "1" none)
        = Ordering.gt) :=
  ⟨⟨by decide,
    (cost_ordering_tiebreak (ResistorTree.Resistor "1" none)
      (ResistorTree.Series
        [ResistorTree.Resistor "1" none, ResistorTree.Resistor "1" none] none)).1
      (by decide)⟩,
   ⟨by with_unfolding_all decide,
    (cost_ordering_tiebreak (ResistorTree.Resistor "2" none)
      (ResistorTree.Resistor "1" none)).2.2 rfl rfl
      (by with_unfolding_all decide)⟩⟩

/-! ### Claim C7: flattening and associativity of `add_in_series` -/

/-- C7 counterexample: for three leaves, the left association yields a
`Series` with children `1, 2, 3` in order, but the right association yields
children `2, 3, 1` — the `(t, &Series(ref v, _))` or-pattern arm appends
the non-`Series` operand AFTER the spliced children, so the two
associations do not produce the same children in the same order. -/
theorem combine_series_assoc_order_cex :
    leafLabels (add_in_series
        (add_in_series (ResistorTree.Resistor "1" none)
          (ResistorTree.Resistor "2" none))
        (ResistorTree.Resistor "3" none)) = ["1", "2", "3"] ∧
    leafLabels (add_in_series (ResistorTree.Resistor "1" none)
        (add_in_series (ResistorTree.Resistor "2" none)
          (ResistorTree.Resistor "3" none))) = ["2", "3", "1"] ∧
    (["1", "2", "3"] : List String) ≠ ["2", "3", "1"] :=
  ⟨rfl, rfl, by decide⟩

theorem isSeries_add_in_series (a b : ResistorTree) :
    isSeries (add_in_series a b) = true := by
  cases a <;> cases b <;> rfl

theorem splice_add_in_series_perm (a b : ResistorTree) :
    (splice (add_in_series a b)).Perm (splice a ++ splice b) := by
  cases a <;> cases b <;> simp only [add_in_series, splice] <;>
    first
      | exact List.Perm.refl _
      | exact List.perm_append_comm

/-- C7 amended: both associations of `add_in_series` yield a single `Series`
node whose children are, up to order, the concatenation of the spliced
operands (a `Series` operand contributes its children, any other operand
contributes itself) — so the two associations have the same children
multiset, and a `Series` operand is never nested whole as a child. -/
theorem combine_series_flattening (x y z : ResistorTree) :
    isSeries (add_in_series (add_in_series x y) z) = true ∧
    isSeries (add_in_series x (add_in_series y z)) = true ∧
    (splice (add_in_series (add_in_series x y) z)).Perm
      (splice x ++ splice y ++ splice z) ∧
    (splice (add_in_series x (add_in_series y z))).Perm
      (splice x ++ splice y ++ splice z) := by
  refine ⟨isSeries_add_in_series _ _, isSeries_add_in_series _ _, ?_, ?_⟩
  · exact (splice_add_in_series_perm _ _).trans
      ((splice_add_in_series_perm x y).append (List.Perm.refl _))
  · rw [List.append_assoc]
    exact (splice_add_in_series_perm _ _).trans
      ((List.Perm.refl _).append (splice_add_in_series_perm y z))

/-! ### Claim C9: `ohms` can only fail at an unparseable leaf -/

mutual

theorem leavesOk_ohms : ∀ (t : ResistorTree),
    leavesOk t = true → (ohms t).isSome = true
  | .Resistor s val, h => by
    cases val with
    | some v => simp [ohms]
    | none =>
      simp only [leavesOk, Option.isSome_none, Bool.false_or] at h
      simp [ohms, h]
  | .Parallel cs val, h => by
    cases val with
    | some v => simp [ohms]
    | none =>
      simp only [leavesOk] at h
      have h4 := allLeavesOk_foldRecip cs 0 h
      simp only [ohms]
      cases hf : foldRecip cs 0 with
      | none => rw [hf] at h4; exact Bool.noConfusion h4
      | some r => simp [hf]
  | .Series cs val, h => by
    cases val with
    | some v => simp [ohms]
    | none =>
      simp only [leavesOk] at h
      have h4 := allLeavesOk_foldSum cs 0 h
      simp only [ohms]
      cases hf : foldSum cs 0 with
      | none => rw [hf] at h4; exact Bool.noConfusion h4
      | some r => simp [hf]

theorem allLeavesOk_foldRecip : ∀ (cs : List ResistorTree) (acc : ℚ),
    allLeavesOk cs = true → (foldRecip cs acc).isSome = true
  | [], _, _ => rfl
  | t :: rest, acc, h => by
    have h2 : leavesOk t = true ∧ allLeavesOk rest = true := by
      simpa [allLeavesOk, Bool.and_eq_true] using h
    have h3 := leavesOk_ohms t h2.1
    cases ho : ohms t with
    | none => rw [ho] at h3; exact Bool.noConfusion h3
    | some r =>
      simp only [foldRecip, ho]
      exact allLeavesOk_foldRecip rest (acc + 1 / r) h2.2

theorem allLeavesOk_foldSum : ∀ (cs : List ResistorTree) (acc : ℚ),
    allLeavesOk cs = true → (foldSum cs acc).isSome = true
  | [], _, _ => rfl
  | t :: rest, acc, h => by
    have h2 : leavesOk t = true ∧ allLeavesOk rest = true := by
      simpa [allLeavesOk, Bool.and_eq_true] using h
    have h3 := leavesOk_ohms t h2.1
    cases ho : ohms t with
    | none => rw [ho] at h3; exact Bool.noConfusion h3
    | some r =>
      simp only [foldSum, ho]
      exact allLeavesOk_foldSum rest (acc + r) h2.2

end

/-- C9: on a network whose every leaf carries a cached value or a label
that parses as a number, `ohms` succeeds — the `fail!` branch (modelled by
`none`) is unreachable, so the resistance computation fails only when some
leaf label cannot be parsed. -/
theorem resistance_fails_only_on_bad_leaf (t : ResistorTree)
    (h : leavesOk t = true) : (ohms t).isSome = true :=
  leavesOk_ohms t h

/-- Witness for `resistance_fails_only_on_bad_leaf` on `Series[100Ω, 220Ω]`. -/
theorem resistance_fails_only_on_bad_leaf_witness :
    leavesOk (ResistorTree.Series
      [ResistorTree.Resistor "100" none, ResistorTree.Resistor "220" none] none)
      = true ∧
    (ohms (ResistorTree.Series
      [ResistorTree.Resistor "100" none, ResistorTree.Resistor "220" none] none)).isSome
      = true :=
  ⟨by with_unfolding_all decide,
   resistance_fails_only_on_bad_leaf _ (by with_unfolding_all decide)⟩

/-! ### Claim C6: deduplication at `push_node` -/

mutual

theorem equiv3_total : ∀ (a b : ResistorTree),
    equiv3 a b = true → total_resistors a = total_resistors b
  | .Resistor _ _, .Resistor _ _, _ => rfl
  | .Parallel c1 _, .Parallel c2 _, h => by
    simp only [total_resistors]
    exact equiv3List_totalFold c1 c2 0 (by simpa [equiv3] using h)
  | .Series c1 _, .Series c2 _, h => by
    simp only [total_resistors]
    exact equiv3List_totalFold c1 c2 0 (by simpa [equiv3] using h)
  | .Resistor _ _, .Parallel _ _, h => by simp [equiv3] at h
  | .Resistor _ _, .Series _ _, h => by simp [equiv3] at h
  | .Parallel _ _, .Resistor _ _, h => by simp [equiv3] at h
  | .Parallel _ _, .Series _ _, h => by simp [equiv3] at h
  | .Series _ _, .Resistor _ _, h => by simp [equiv3] at h
  | .Series _ _, .Parallel _ _, h => by simp [equiv3] at h

theorem equiv3List_totalFold : ∀ (c1 c2 : List ResistorTree) (acc : ℕ),
    equiv3List c1 c2 = true → totalFold c1 acc = totalFold c2 acc
  | [], [], _, _ => rfl
  | [], _ :: _, _, h => by simp [equiv3List] at h
  | _ :: _, [], _, h => by simp [equiv3List] at h
  | t1 :: r1, t2 :: r2, acc, h => by
    have h2 : equiv3 t1 t2 = true ∧ equiv3List r1 r2 = true := by
      simpa [equiv3List, Bool.and_eq_true] using h
    simp only [totalFold]
    rw [equiv3_total t1 t2 h2.1]
    exact equiv3List_totalFold r1 r2 (acc + total_resistors t2) h2.2

end

mutual

theorem equiv3_eq_swap : ∀ (a b : ResistorTree),
    equiv3 a b = true → ResistorTree.eq b a = true
  | .Resistor l1 _, .Resistor l2 _, h => by
    have : l1 = l2 := by simpa [equiv3] using h
    simp [ResistorTree.eq, this]
  | .Parallel c1 _, .Parallel c2 _, h => by
    simp only [ResistorTree.eq]
    exact equiv3List_zipEq_swap c1 c2 (by simpa [equiv3] using h)
  | .Series c1 _, .Series c2 _, h => by
    simp only [ResistorTree.eq]
    exact equiv3List_zipEq_swap c1 c2 (by simpa [equiv3] using h)
  | .Resistor _ _, .Parallel _ _, h => by simp [equiv3] at h
  | .Resistor _ _, .Series _ _, h => by simp [equiv3] at h
  | .Parallel _ _, .Resistor _ _, h => by simp [equiv3] at h
  | .Parallel _ _, .Series _ _, h => by simp [equiv3] at h
  | .Series _ _, .Resistor _ _, h => by simp [equiv3] at h
  | .Series _ _, .Parallel _ _, h => by simp [equiv3] at h

theorem equiv3List_zipEq_swap : ∀ (c1 c2 : List ResistorTree),
    equiv3List c1 c2 = true → zipEq c2 c1 = true
  | [], [], _ => rfl
  | [], _ :: _, h => by simp [equiv3List] at h
  | _ :: _, [], h => by simp [equiv3List] at h
  | t1 :: r1, t2 :: r2, h => by
    have h2 : equiv3 t1 t2 = true ∧ equiv3List r1 r2 = true := by
      simpa [equiv3List, Bool.and_eq_true] using h
    simp only [zipEq, Bool.and_eq_true]
    exact ⟨equiv3_eq_swap t1 t2 h2.1, equiv3List_zipEq_swap r1 r2 h2.2⟩

end

theorem ordering_beq_eq {o : Ordering} :
    (o == Ordering.eq) = true ↔ o = Ordering.eq := by
  cases o <;> simp <;> decide

theorem setContains_iff (expl : List ResistorTree) (rt : ResistorTree) :
    setContains expl rt = true ↔ ∃ m ∈ expl, cmp rt m = Ordering.eq := by
  simp [setContains, List.any_eq_true, ordering_beq_eq]

theorem cmp_eq_of_equiv3 {n1 n2 : ResistorTree} (h : equiv3 n1 n2 = true) :
    cmp n2 n1 = Ordering.eq := by
  have ht : total_resistors n2 = total_resistors n1 := (equiv3_total n1 n2 h).symm
  have he : ResistorTree.eq n2 n1 = true := equiv3_eq_swap n1 n2 h
  unfold cmp
  rw [Nat.compare_eq_eq.2 ht]
  simp [he]

/-- C6: pushing a candidate that is §3-equivalent to an already-explored
network changes nothing (it is inserted into neither the frontier nor the
explored set); and whenever `push_node` does insert into the frontier, it
inserts into the explored set at the same moment. -/
theorem push_node_dedup (st : SearcherState) (n1 n2 : ResistorTree) :
    (n1 ∈ st.explored → equiv3 n1 n2 = true → push_node st n2 = st) ∧
    (push_node st n2 = st ∨
      ((push_node st n2).queue = n2 :: st.queue ∧
        (push_node st n2).explored = n2 :: st.explored)) := by
  constructor
  · intro hm he
    have hc : setContains st.explored n2 = true :=
      (setContains_iff _ _).2 ⟨n1, hm, cmp_eq_of_equiv3 he⟩
    simp [push_node, hc]
  · by_cases hc : setContains st.explored n2 = true
    · exact Or.inl (by simp [push_node, hc])
    · exact Or.inr (by simp [push_node, hc])

/-- Witness for `push_node_dedup`: a leaf already explored suppresses a
candidate differing only in its cached value. -/
theorem push_node_dedup_witness :
    (ResistorTree.Resistor "1" none) ∈
      (SearcherState.mk [] [ResistorTree.Resistor "1" none]).explored ∧
    equiv3 (ResistorTree.Resistor "1" none)
      (ResistorTree.Resistor "1" (some 5)) = true ∧
    push_node (SearcherState.mk [] [ResistorTree.Resistor "1" none])
        (ResistorTree.Resistor "1" (some 5))
      = SearcherState.mk [] [ResistorTree.Resistor "1" none] :=
  ⟨by simp, rfl,
   (push_node_dedup (SearcherState.mk [] [ResistorTree.Resistor "1" none])
      (ResistorTree.Resistor "1" none) (ResistorTree.Resistor "1" (some 5))).1
      (by simp) rfl⟩

/-! ### Claim C8: the ladder expansion of a `Series` node -/

theorem series_ladder_mapIdx (nr : ResistorTree) (i : ℕ) :
    ∀ (cs : List ResistorTree) (j : ℕ),
      series_ladder nr i cs j =
        cs.mapIdx (fun k c => if i = j + k then c else add_in_parallel c nr)
  | [], _ => by simp [series_ladder]
  | c :: rest, j => by
    have harg : (fun k (c' : ResistorTree) =>
          if i = j + 1 + k then c' else add_in_parallel c' nr)
        = (fun k c' => if i = j + (k + 1) then c' else add_in_parallel c' nr) := by
      funext k c'
      rw [Nat.add_assoc, Nat.add_comm 1 k]
    simp only [series_ladder, List.mapIdx_cons, Nat.add_zero,
      series_ladder_mapIdx nr i rest (j + 1), harg]

/-- C8: expanding a `Series` node with children `cs` generates, for each
catalogue value `v` (in catalogue order): the two whole-tree combinations,
followed by exactly one ladder variant per child index `i` — a `Series`
whose `i`-th child is unchanged and whose every other child `c` is replaced
by `add_in_parallel c (Leaf v)`. -/
theorem explore_series_generates_ladder (cs : List ResistorTree)
    (val : Option ℚ) (available : List ℚ) :
    explore_list (ResistorTree.Series cs val) available =
      available.flatMap (fun v =>
        add_in_series (ResistorTree.Series cs val) (new_r v) ::
        add_in_parallel (ResistorTree.Series cs val) (new_r v) ::
        (List.range cs.length).map (fun i =>
          ResistorTree.Series
            (cs.mapIdx (fun j c =>
              if i = j then c else add_in_parallel c (new_r v))) none)) := by
  simp only [explore_list]
  have h2 : ∀ v : ℚ,
      (fun i => ResistorTree.Series (series_ladder (new_r v) i cs 0) none)
        = (fun i => ResistorTree.Series
            (cs.mapIdx (fun j c =>
              if i = j then c else add_in_parallel c (new_r v))) none) := by
    intro v
    funext i
    rw [series_ladder_mapIdx]
    have h3 : (fun k (c : ResistorTree) =>
          if i = 0 + k then c else add_in_parallel c (new_r v))
        = (fun k c => if i = k then c else add_in_parallel c (new_r v)) := by
      funext k c
      rw [Nat.zero_add]
    rw [h3]
  congr 1
  funext v
  rw [h2 v]

/-! ### Claim C2: goal correctness and the empty-catalogue behaviour of
`search`.

The `None` direction rests on a count invariant: trees are popped from the
frontier in non-decreasing leaf-count order (the scanning `popMax` always
removes a tree of minimal leaf count, because `cmp` reverses the count
comparison), every successor of a popped tree has a strictly larger leaf
count than some tree still in the frontier would allow it to have been
popped with, and therefore a suppressed successor's explored witness must
still be waiting in the frontier. -/

theorem cmp_gt_total_le {a b : ResistorTree} (h : cmp a b = Ordering.gt) :
    total_resistors a ≤ total_resistors b := by
  unfold cmp at h
  cases hc : compare (total_resistors a) (total_resistors b) with
  | lt => exact le_of_lt (Nat.compare_eq_lt.1 hc)
  | eq => exact le_of_eq (Nat.compare_eq_eq.1 hc)
  | gt => rw [hc] at h; exact Ordering.noConfusion h

theorem cmp_not_gt_total_le {a b : ResistorTree}
    (h : ¬ cmp a b = Ordering.gt) : total_resistors b ≤ total_resistors a := by
  unfold cmp at h
  cases hc : compare (total_resistors a) (total_resistors b) with
  | lt => exact absurd (by rw [hc]) h
  | eq => exact le_of_eq (Nat.compare_eq_eq.1 hc).symm
  | gt => exact le_of_lt (Nat.compare_eq_gt.1 hc)

theorem cmp_eq_total_eq {a b : ResistorTree} (h : cmp a b = Ordering.eq) :
    total_resistors a = total_resistors b := by
  unfold cmp at h
  cases hc : compare (total_resistors a) (total_resistors b) with
  | eq => exact Nat.compare_eq_eq.1 hc
  | lt => rw [hc] at h; exact Ordering.noConfusion h
  | gt => rw [hc] at h; exact Ordering.noConfusion h

theorem popMax_nil : popMax [] = none := rfl

theorem popMax_eq_none {l : List ResistorTree} (h : popMax l = none) :
    l = [] := by
  cases l with
  | nil => rfl
  | cons t ts =>
    exfalso
    unfold popMax at h
    cases h2 : popMax ts with
    | none => rw [h2] at h; exact Option.noConfusion h
    | some p =>
      obtain ⟨m, r⟩ := p
      simp only [h2] at h
      by_cases hg : cmp t m = Ordering.gt
      · rw [if_pos hg] at h; exact Option.noConfusion h
      · rw [if_neg hg] at h; exact Option.noConfusion h

theorem popMax_perm : ∀ (l : List ResistorTree) (t : ResistorTree)
    (rest : List ResistorTree), popMax l = some (t, rest) → l.Perm (t :: rest)
  | [], t, rest, h => by exact Option.noConfusion h
  | a :: ts, t, rest, h => by
    unfold popMax at h
    cases h2 : popMax ts with
    | none =>
      simp only [h2] at h
      simp only [Option.some.injEq, Prod.mk.injEq] at h
      obtain ⟨rfl, rfl⟩ := h
      exact List.Perm.refl _
    | some p =>
      obtain ⟨m, r⟩ := p
      simp only [h2] at h
      by_cases hg : cmp a m = Ordering.gt
      · rw [if_pos hg] at h
        simp only [Option.some.injEq, Prod.mk.injEq] at h
        obtain ⟨rfl, rfl⟩ := h
        exact List.Perm.refl _
      · rw [if_neg hg] at h
        simp only [Option.some.injEq, Prod.mk.injEq] at h
        obtain ⟨rfl, rfl⟩ := h
        have hp := popMax_perm ts m r h2
        exact (hp.cons a).trans (List.Perm.swap m a r)

theorem popMax_min : ∀ (l : List ResistorTree) (t : ResistorTree)
    (rest : List ResistorTree), popMax l = some (t, rest) →
    ∀ q ∈ l, total_resistors t ≤ total_resistors q
  | [], t, rest, h => by exact Option.noConfusion h
  | a :: ts, t, rest, h => by
    unfold popMax at h
    cases h2 : popMax ts with
    | none =>
      simp only [h2] at h
      simp only [Option.some.injEq, Prod.mk.injEq] at h
      obtain ⟨rfl, rfl⟩ := h
      have hts : ts = [] := popMax_eq_none h2
      subst hts
      intro q hq
      simp only [List.mem_singleton] at hq
      subst hq
      exact le_refl _
    | some p =>
      obtain ⟨m, r⟩ := p
      simp only [h2] at h
      have hmin := popMax_min ts m r h2
      by_cases hg : cmp a m = Ordering.gt
      · rw [if_pos hg] at h
        simp only [Option.some.injEq, Prod.mk.injEq] at h
        obtain ⟨rfl, rfl⟩ := h
        intro q hq
        rcases List.mem_cons.1 hq with rfl | hq'
        · exact le_refl _
        · exact le_trans (cmp_gt_total_le hg) (hmin q hq')
      · rw [if_neg hg] at h
        simp only [Option.some.injEq, Prod.mk.injEq] at h
        obtain ⟨rfl, rfl⟩ := h
        intro q hq
        rcases List.mem_cons.1 hq with rfl | hq'
        · exact cmp_not_gt_total_le hg
        · exact hmin q hq'

theorem push_node_spec (st : SearcherState) (s : ResistorTree) :
    (setContains st.explored s = true ∧ push_node st s = st) ∨
    (setContains st.explored s = false ∧
      (push_node st s).queue = s :: st.queue ∧
      (push_node st s).explored = s :: st.explored) := by
  by_cases hc : setContains st.explored s = true
  · exact Or.inl ⟨hc, by simp [push_node, hc]⟩
  · refine Or.inr ⟨by simpa using hc, ?_, ?_⟩ <;> simp [push_node, hc]

theorem foldl_push_queue_mono : ∀ (l : List ResistorTree) (st : SearcherState)
    {m : ResistorTree}, m ∈ st.queue → m ∈ (l.foldl push_node st).queue
  | [], _, _, h => h
  | s :: rest, st, m, h => by
    simp only [List.foldl_cons]
    apply foldl_push_queue_mono rest
    rcases push_node_spec st s with ⟨-, heq⟩ | ⟨-, hq, -⟩
    · rw [heq]; exact h
    · rw [hq]; exact List.mem_cons_of_mem _ h

theorem foldl_push_explored_sub : ∀ (l : List ResistorTree)
    (st : SearcherState) {m : ResistorTree},
    m ∈ (l.foldl push_node st).explored →
    m ∈ (l.foldl push_node st).queue ∨ m ∈ st.explored
  | [], _, _, h => Or.inr h
  | s :: rest, st, m, h => by
    simp only [List.foldl_cons] at h ⊢
    rcases foldl_push_explored_sub rest (push_node st s) h with hq | he
    · exact Or.inl hq
    · rcases push_node_spec st s with ⟨-, heq⟩ | ⟨-, hq, hex⟩
      · rw [heq] at he; exact Or.inr he
      · rw [hex] at he
        rcases List.mem_cons.1 he with rfl | he'
        · left
          apply foldl_push_queue_mono rest
          rw [hq]
          exact List.mem_cons_self _ _
        · exact Or.inr he'

theorem foldl_push_queue_from : ∀ (l : List ResistorTree)
    (st : SearcherState) {q : ResistorTree},
    q ∈ (l.foldl push_node st).queue → q ∈ st.queue ∨ q ∈ l
  | [], _, _, h => Or.inl h
  | s :: rest, st, q, h => by
    simp only [List.foldl_cons] at h
    rcases foldl_push_queue_from rest (push_node st s) h with hq | hl
    · rcases push_node_spec st s with ⟨-, heq⟩ | ⟨-, hqs, -⟩
      · rw [heq] at hq; exact Or.inl hq
      · rw [hqs] at hq
        rcases List.mem_cons.1 hq with rfl | hq'
        · exact Or.inr (List.mem_cons_self _ _)
        · exact Or.inl hq'
    · exact Or.inr (List.mem_cons_of_mem _ hl)

theorem foldl_push_empty : ∀ (l : List ResistorTree) (st : SearcherState),
    (l.foldl push_node st).queue = [] →
    st.queue = [] ∧ ∀ s ∈ l, ∃ m ∈ st.explored, cmp s m = Ordering.eq
  | [], st, h => ⟨h, by simp⟩
  | s :: rest, st, h => by
    simp only [List.foldl_cons] at h
    rcases push_node_spec st s with ⟨hc, heq⟩ | ⟨-, hq, -⟩
    · rw [heq] at h
      obtain ⟨h1, h2⟩ := foldl_push_empty rest st h
      refine ⟨h1, ?_⟩
      intro x hx
      rcases List.mem_cons.1 hx with rfl | hx'
      · exact (setContains_iff _ _).1 hc
      · exact h2 x hx'
    · exfalso
      have hs : s ∈ (rest.foldl push_node (push_node st s)).queue := by
        apply foldl_push_queue_mono rest
        rw [hq]
        exact List.mem_cons_self _ _
      rw [h] at hs
      exact List.not_mem_nil _ hs

theorem total_series_ladder_ge (nr : ResistorTree) (i : ℕ) :
    ∀ (cs : List ResistorTree) (j : ℕ),
      (cs.map total_resistors).sum
        ≤ ((series_ladder nr i cs j).map total_resistors).sum
  | [], _ => le_refl _
  | c :: rest, j => by
    simp only [series_ladder, List.map_cons, List.sum_cons]
    have h1 : total_resistors c
        ≤ total_resistors (if i = j then c else add_in_parallel c nr) := by
      split
      · exact le_refl _
      · rw [total_add_in_parallel]; exact Nat.le_add_right _ _
    exact Nat.add_le_add h1 (total_series_ladder_ge nr i rest (j + 1))

theorem total_parallel_ladder_ge (nr : ResistorTree) (i : ℕ) :
    ∀ (cs : List ResistorTree) (j : ℕ),
      (cs.map total_resistors).sum
        ≤ ((parallel_ladder nr i cs j).map total_resistors).sum
  | [], _ => le_refl _
  | c :: rest, j => by
    simp only [parallel_ladder, List.map_cons, List.sum_cons]
    have h1 : total_resistors c
        ≤ total_resistors (if i = j then c else add_in_series c nr) := by
      split
      · exact le_refl _
      · rw [total_add_in_series]; exact Nat.le_add_right _ _
    exact Nat.add_le_add h1 (total_parallel_ladder_ge nr i rest (j + 1))

theorem explore_list_count (rt : ResistorTree) (available : List ℚ)
    (s : ResistorTree) (hs : s ∈ explore_list rt available) :
    total_resistors rt ≤ total_resistors s := by
  cases rt with
  | Resistor lab val =>
    simp only [explore_list] at hs
    rcases List.mem_flatMap.1 hs with ⟨v, -, hmem⟩
    simp only [List.mem_cons, List.not_mem_nil, or_false] at hmem
    rcases hmem with rfl | rfl
    · rw [total_add_in_series]; exact Nat.le_add_right _ _
    · rw [total_add_in_parallel]; exact Nat.le_add_right _ _
  | Series cs val =>
    simp only [explore_list] at hs
    rcases List.mem_flatMap.1 hs with ⟨v, -, hmem⟩
    rcases List.mem_cons.1 hmem with rfl | hmem'
    · rw [total_add_in_series]; exact Nat.le_add_right _ _
    rcases List.mem_cons.1 hmem' with rfl | hmem''
    · rw [total_add_in_parallel]; exact Nat.le_add_right _ _
    rcases List.mem_map.1 hmem'' with ⟨i, -, rfl⟩
    simp only [total_resistors, totalFold_eq_sum, Nat.zero_add]
    exact total_series_ladder_ge (new_r v) i cs 0
  | Parallel cs val =>
    simp only [explore_list] at hs
    rcases List.mem_flatMap.1 hs with ⟨v, -, hmem⟩
    rcases List.mem_cons.1 hmem with rfl | hmem'
    · rw [total_add_in_series]; exact Nat.le_add_right _ _
    rcases List.mem_cons.1 hmem' with rfl | hmem''
    · rw [total_add_in_parallel]; exact Nat.le_add_right _ _
    rcases List.mem_map.1 hmem'' with ⟨i, -, rfl⟩
    simp only [total_resistors, totalFold_eq_sum, Nat.zero_add]
    exact total_parallel_ladder_ge (new_r v) i cs 0

theorem mem_explore_series (rt : ResistorTree) (v : ℚ) (available : List ℚ)
    (hv : v ∈ available) :
    add_in_series rt (new_r v) ∈ explore_list rt available := by
  cases rt <;> simp only [explore_list] <;>
    exact List.mem_flatMap.2 ⟨v, hv, by simp⟩

/-- The invariant of the search loop: every explored tree is still in the
frontier or has been popped, and popped trees have leaf counts below every
frontier tree's. -/
def SearchInv (st : SearcherState) (popped : List ResistorTree) : Prop :=
  (∀ m ∈ st.explored, m ∈ st.queue ∨ m ∈ popped) ∧
  (∀ p ∈ popped, ∀ q ∈ st.queue, total_resistors p ≤ total_resistors q)

theorem searchLoop_ne_none (target threshold : ℚ) (available : List ℚ)
    (hav : available ≠ []) :
    ∀ (fuel : ℕ) (st : SearcherState) (popped : List ResistorTree),
      SearchInv st popped → st.queue ≠ [] →
      searchLoop target threshold available fuel st ≠ SearchResult.noneFound
  | 0, st, popped, _, _ => by
    intro h
    exact SearchResult.noConfusion h
  | fuel + 1, st, popped, hinv, hqne => by
    unfold searchLoop
    cases hpop : popMax st.queue with
    | none => exact absurd (popMax_eq_none hpop) hqne
    | some pr =>
      obtain ⟨rt, rest⟩ := pr
      dsimp only
      cases hg : is_goal target threshold rt with
      | none => intro h; exact SearchResult.noConfusion h
      | some b =>
        cases b with
        | true => intro h; exact SearchResult.noConfusion h
        | false =>
          have hperm := popMax_perm st.queue rt rest hpop
          have hmin := popMax_min st.queue rt rest hpop
          have hrtmem : rt ∈ st.queue :=
            hperm.mem_iff.2 (List.mem_cons_self _ _)
          have hql : (explore_node ⟨rest, st.explored⟩ rt available).queue ≠ [] := by
            intro hempty
            obtain ⟨hrest, hall⟩ :=
              foldl_push_empty (explore_list rt available) ⟨rest, st.explored⟩ hempty
            have hrest2 : rest = [] := hrest
            cases havail : available with
            | nil => exact hav havail
            | cons v vs =>
              have hsmem : add_in_series rt (new_r v) ∈ explore_list rt available := by
                rw [havail]
                exact mem_explore_series rt v _ (List.mem_cons_self _ _)
              obtain ⟨m, hm, hcmp⟩ := hall _ hsmem
              have h1 : total_resistors m = total_resistors rt + 1 := by
                have h2 := cmp_eq_total_eq hcmp
                rw [total_add_in_series, total_new_r] at h2
                omega
              rcases hinv.1 m hm with hmq | hmp
              · have hm2 : m ∈ rt :: rest := hperm.mem_iff.1 hmq
                rw [hrest2] at hm2
                simp only [List.mem_singleton] at hm2
                subst hm2
                omega
              · have := hinv.2 m hmp rt hrtmem
                omega
          have hinv' : SearchInv (explore_node ⟨rest, st.explored⟩ rt available)
              (rt :: popped) := by
            constructor
            · intro m hm
              rcases foldl_push_explored_sub (explore_list rt available)
                  ⟨rest, st.explored⟩ hm with hq' | he
              · exact Or.inl hq'
              · rcases hinv.1 m he with hmq | hmp
                · have hm2 : m ∈ rt :: rest := hperm.mem_iff.1 hmq
                  rcases List.mem_cons.1 hm2 with rfl | hmrest
                  · exact Or.inr (List.mem_cons_self _ _)
                  · exact Or.inl (foldl_push_queue_mono _ _ hmrest)
                · exact Or.inr (List.mem_cons_of_mem _ hmp)
            · intro p hp q hq'
              have hqsrc := foldl_push_queue_from (explore_list rt available)
                ⟨rest, st.explored⟩ hq'
              rcases List.mem_cons.1 hp with rfl | hp'
              · rcases hqsrc with hqr | hqs
                · exact hmin q (hperm.mem_iff.2 (List.mem_cons_of_mem _ hqr))
                · exact explore_list_count p available q hqs
              · rcases hqsrc with hqr | hqs
                · exact hinv.2 p hp' q (hperm.mem_iff.2 (List.mem_cons_of_mem _ hqr))
                · exact le_trans (hinv.2 p hp' rt hrtmem)
                    (explore_list_count rt available q hqs)
          exact searchLoop_ne_none target threshold available hav fuel
            (explore_node ⟨rest, st.explored⟩ rt available) (rt :: popped)
            hinv' hql

theorem seed_inv (available : List ℚ) : SearchInv (seedState available) [] := by
  constructor
  · intro m hm
    rcases foldl_push_explored_sub (available.map new_r) ⟨[], []⟩ hm with h | h
    · exact Or.inl h
    · exact absurd h (List.not_mem_nil _)
  · intro p hp
    exact absurd hp (List.not_mem_nil _)

theorem seed_queue_ne (v : ℚ) (vs : List ℚ) :
    (seedState (v :: vs)).queue ≠ [] := by
  intro h
  obtain ⟨-, hall⟩ := foldl_push_empty ((v :: vs).map new_r) ⟨[], []⟩ h
  obtain ⟨m, hm, -⟩ := hall (new_r v) (by simp)
  exact List.not_mem_nil m hm

theorem searchLoop_found (target threshold : ℚ) (available : List ℚ) :
    ∀ (fuel : ℕ) (st : SearcherState) (n : ResistorTree),
      searchLoop target threshold available fuel st = SearchResult.found n →
      ∃ r, ohms n = some r ∧ |r - target| < threshold
  | 0, _, _, h => by exact SearchResult.noConfusion h
  | fuel + 1, st, n, h => by
    unfold searchLoop at h
    cases hpop : popMax st.queue with
    | none => rw [hpop] at h; exact SearchResult.noConfusion h
    | some pr =>
      obtain ⟨rt, rest⟩ := pr
      simp only [hpop] at h
      cases hg : is_goal target threshold rt with
      | none =>
        simp only [hg] at h
        exact SearchResult.noConfusion h
      | some b =>
        simp only [hg] at h
        cases b with
        | true =>
          have hn : rt = n := by
            simpa using h
          subst hn
          unfold is_goal at hg
          cases ho : ohms rt with
          | none => rw [ho] at hg; exact Option.noConfusion hg
          | some r =>
            rw [ho] at hg
            simp only [Option.map_some', Option.some.injEq,
              decide_eq_true_eq] at hg
            exact ⟨r, rfl, hg⟩
        | false =>
          exact searchLoop_found target threshold available fuel _ n h

/-- C2: `search` returns `found n` only for a network whose resistance is
within `threshold` of `target`; it returns `noneFound` only when the
catalogue is empty; and with an empty catalogue it returns `noneFound`
immediately (on the first loop iteration, for any positive fuel). -/
theorem search_goal_correctness (target threshold : ℚ) (available : List ℚ)
    (fuel : ℕ) :
    (∀ n, search target threshold available fuel = SearchResult.found n →
      ∃ r, ohms n = some r ∧ |r - target| < threshold) ∧
    (search target threshold available fuel = SearchResult.noneFound →
      available = []) ∧
    (available = [] →
      search target threshold available (fuel + 1) = SearchResult.noneFound) := by
  refine ⟨?_, ?_, ?_⟩
  · intro n h
    exact searchLoop_found target threshold available fuel (seedState available) n h
  · intro h
    by_contra hav
    cases havail : available with
    | nil => exact hav havail
    | cons v vs =>
      refine searchLoop_ne_none target threshold available hav fuel
        (seedState available) [] (seed_inv available) ?_ h
      rw [havail]
      exact seed_queue_ne v vs
  · intro h
    subst h
    rfl

/-- Witness for `search_goal_correctness`: a one-step search on catalogue
`[320]` finds the `320Ω` leaf within threshold `1`, and the empty catalogue
returns `noneFound` at once. -/
theorem search_goal_correctness_witness :
    (∃ r, ohms (ResistorTree.Resistor "320" none) = some r ∧
      |r - (320 : ℚ)| < 1) ∧
    search 320 1 ([] : List ℚ) 1 = SearchResult.noneFound :=
  ⟨(search_goal_correctness 320 1 [320] 1).1 (ResistorTree.Resistor "320" none)
      (by with_unfolding_all rfl),
   (search_goal_correctness 320 1 [] 0).2.2 rfl⟩

end Resistors
